import Mathlib

/-!
Verification of `tlx/sort/parallel_mergesort.hpp` (parallel multiway mergesort).

The C++ code runs a fork-join team of `num_threads` workers over one shared
state.  All inter-phase synchronisation is by barriers, and within each phase
every shared cell is written by exactly one worker, so the whole algorithm is
modelled as a deterministic sequential computation: each phase is a pure
function of the results of the previous phases, evaluated for every worker id.

Machine integers: the C++ code indexes with `DiffType` (a signed integer type)
and `size_t`; all quantities involved are non-negative and far from overflow,
so they are modelled as `Nat`.  Where the C++ subtracts, the development proves
the minuend dominates wherever the value matters.

External functions used by the source are modelled as follows:
* `std::stable_sort` is modelled exactly by `List.insertionSort` (stable);
  `std::sort` only promises some sorted permutation, for which the same
  sorted permutation is taken as representative.
* `std::lower_bound` on a range that is partitioned with respect to
  `comp · < target` (the precondition of `std::lower_bound`; sorted ranges
  qualify) returns the first position whose element is not ordered before the
  target, i.e. the length of the longest prefix of elements ordered before
  the target.  `lower_bound` below is exactly that.
* array reads `a[i]` are modelled with `List.getD` (out-of-range reads give
  `default`; the development tracks separately where the C++ indices are in
  range, and where they are not).
-/

namespace tlx

variable {α : Type} {β : Type} {γ : Type}

/-- The non-strict order induced by a strict comparator: `a` precedes or ties
`b` when `b` is not strictly ordered before `a` (C++ `!comp(b, a)`). -/
def leP (comp : α → α → Bool) (a b : α) : Prop := comp b a = false

instance (comp : α → α → Bool) : DecidableRel (leP comp) :=
  fun a b => instDecidableEqBool (comp b a) false

/-- `comp` is a strict weak ordering: irreflexive, transitive, and with
transitive complement (equivalently: the induced `leP` is total and
transitive).  This is the comparator contract required by `std::sort`. -/
structure IsSWO (comp : α → α → Bool) : Prop where
  irrefl : ∀ a, comp a a = false
  trans : ∀ a b c, comp a b = true → comp b c = true → comp a c = true
  compl_trans : ∀ a b c, comp a b = false → comp b c = false → comp a c = false

/-- The half-open index range `[a, b)` of a list (the C++ iterator range
`l + a, l + b`). -/
def slice (l : List α) (a b : Nat) : List α := (l.drop a).take (b - a)

/-- Source line 108: `size_t sort_mwms_oversampling = 10;`. -/
def sort_mwms_oversampling : Nat := 10

/-- The splitting-algorithm enumeration referenced by the source
(declared in `tlx/algorithm/parallel_multiway_merge.hpp`). -/
inductive MultiwayMergeSplittingAlgorithm : Type where
  | MWMSA_SAMPLING : MultiwayMergeSplittingAlgorithm
  | MWMSA_EXACT : MultiwayMergeSplittingAlgorithm
deriving DecidableEq

/-- Source lines 170 and 313: both `parallel_sort_mwms_pu` and
`parallel_mergesort` fix the splitting mode as the local constant
`MultiwayMergeSplittingAlgorithm mwmsa = MWMSA_SAMPLING;`; no call parameter
feeds into it. -/
def mwmsa : MultiwayMergeSplittingAlgorithm :=
  MultiwayMergeSplittingAlgorithm.MWMSA_SAMPLING

/-- Modelled from the spec: the range-division helper `equally_split`
(`tlx/algorithm/multisequence_selection.hpp`, not part of the sources at
hand) returns `p+1` monotonically increasing offsets partitioning `[0, n]`
as evenly as possible, remainder distributed to the front:
`o_i = i*(n/p) + min i (n%p)`. -/
def equally_split (n p : Nat) : List Nat :=
  (List.range (p + 1)).map (fun i => i * (n / p) + min i (n % p))

/-- Size of the `i`-th chunk (source lines 325-330): the first `n % T`
workers get `n / T + 1` elements, the rest `n / T`. -/
def chunk_size (n T i : Nat) : Nat := if i < n % T then n / T + 1 else n / T

/-- `starts[i]` of the source (lines 323-335): the running sum of the chunk
sizes of workers `0, …, i-1`. -/
def startsF (n T i : Nat) : Nat := ((List.range i).map (chunk_size n T)).sum

/-- The whole `sd.starts` array (`T+1` entries). -/
def starts (n T : Nat) : List Nat := (List.range (T + 1)).map (startsF n T)

/-- Source lines 306-307: clamp the thread count to at least one element per
thread: `if (num_threads > n) num_threads = n;`. -/
def clamp_threads (n num_threads : Nat) : Nat :=
  if num_threads > n then n else num_threads

/-- Length of chunk `s`: `starts[s+1] - starts[s]` (source line 147). -/
def chunk_len (n T s : Nat) : Nat := startsF n T (s + 1) - startsF n T s

/-- Local sort of one worker's chunk (source lines 162-166).
`std::stable_sort` is modelled exactly by stable insertion sort; `std::sort`
guarantees only some sorted permutation and is modelled by the same
representative, so the two branches of the source coincide in the model. -/
def local_sort (comp : α → α → Bool) (l : List α) : List α :=
  List.insertionSort (leP comp) l

/-- Worker `s`'s sorted chunk, `sd->sorting_places[s]` after the local sort
(source lines 153-166, default strategy: a copy of the chunk, sorted). -/
def sorting_place (comp : α → α → Bool) (input : List α) (T s : Nat) : List α :=
  local_sort comp (slice input (startsF input.length T s) (startsF input.length T (s + 1)))

/-- `num_samples` of `determine_samples` (source line 120):
`sort_mwms_oversampling * num_threads - 1`. -/
def num_samples (T : Nat) : Nat := sort_mwms_oversampling * T - 1

/-- The source index read for worker `iam`'s `i`-th sample (source lines
122-127): `starts[iam] + es[i+1]`, where `es` equally splits the chunk
length into `num_samples + 1` parts. -/
def sample_index (n T iam i : Nat) : Nat :=
  startsF n T iam + (equally_split (chunk_len n T iam) (num_samples T + 1)).getD (i + 1) 0

/-- The value stored for worker `iam`'s `i`-th sample (source line 127):
`sd->source[starts[iam] + es[i+1]]`.  The value is read from `sd->source`,
the input sequence, whose contents under the default (copy-to-temporary)
strategy are still the original, unsorted elements. -/
def sample_value [Inhabited α] (input : List α) (T iam i : Nat) : α :=
  input.getD (sample_index input.length T iam i) default

/-- The shared `sd->samples` array after every worker stored its samples
(source line 127): worker `iam` writes its values to entries
`iam * num_samples + i`, `i < num_samples`. -/
def samples [Inhabited α] (input : List α) (T : Nat) : List α :=
  (List.range T).flatMap (fun iam =>
    (List.range (num_samples T)).map (fun i => sample_value input T iam i))

/-- What the spec prescribes for the sample values: the element at the
`es[i+1]`-th position of the worker's own sorted chunk (the buffer sorted in
the local-sort stage).  Stated from the spec's words, to be compared with
`sample_value`, which is what the source reads. -/
def spec_sample_value [Inhabited α] (comp : α → α → Bool) (input : List α)
    (T iam i : Nat) : α :=
  (sorting_place comp input T iam).getD
    ((equally_split (chunk_len input.length T iam) (num_samples T + 1)).getD (i + 1) 0) default

/-- The samples array after the single `std::sort` (source line 180);
modelled by the same sorted-permutation representative. -/
def sorted_samples [Inhabited α] (comp : α → α → Bool) (input : List α) (T : Nat) : List α :=
  local_sort comp (samples input T)

/-- `std::lower_bound`: the first position of the range whose element is not
ordered before `t`; on ranges partitioned by `comp · t` (in particular on
sorted ranges, the contract of `std::lower_bound`) this is the length of the
longest prefix of elements ordered before `t`. -/
def lower_bound (comp : α → α → Bool) (l : List α) (t : α) : Nat :=
  (l.takeWhile (fun x => comp x t)).length

/-- The global splitter used for boundary `k`: `sd->samples[num_samples * k]`
after the sample sort (source lines 191 and 202). -/
def splitter [Inhabited α] (comp : α → α → Bool) (input : List α) (T k : Nat) : α :=
  (sorted_samples comp input T).getD (num_samples T * k) default

/-- `sd->pieces[iam][s].begin` in sampling mode (source lines 187-196). -/
def piece_begin [Inhabited α] (comp : α → α → Bool) (input : List α) (T iam s : Nat) : Nat :=
  if num_samples T * iam > 0 then
    lower_bound comp (sorting_place comp input T s) (splitter comp input T iam)
  else 0

/-- `sd->pieces[iam][s].end` in sampling mode (source lines 198-207). -/
def piece_end [Inhabited α] (comp : α → α → Bool) (input : List α) (T iam s : Nat) : Nat :=
  if num_samples T * (iam + 1) < num_samples T * T then
    lower_bound comp (sorting_place comp input T s) (splitter comp input T (iam + 1))
  else chunk_len input.length T s

/-- `sd->pieces[iam][seq].end` in exact mode (source lines 224-232): for all
but the last worker the offset returned by the external
`multisequence_partition` primitive (taken here as a parameter `prim`, as the
primitive is specified only by contract); for the last worker the absolute
chunk end. -/
def piece_end_exact (prim : Nat → Nat → Nat) (n T iam s : Nat) : Nat :=
  if iam < T - 1 then prim iam s else chunk_len n T s

/-- `sd->pieces[iam][seq].begin` in exact mode (source lines 236-244): the
previous worker's `end` for the same chunk, and `0` for worker `0`. -/
def piece_begin_exact (prim : Nat → Nat → Nat) (n T iam s : Nat) : Nat :=
  if iam > 0 then piece_end_exact prim n T (iam - 1) s else 0

/-- Worker `iam`'s output offset `Σ_s pieces[iam][s].begin`
(source lines 248-253). -/
def merge_offset [Inhabited α] (comp : α → α → Bool) (input : List α) (T iam : Nat) : Nat :=
  ((List.range T).map (fun s => piece_begin comp input T iam s)).sum

/-- Worker `iam`'s output length `Σ_s (pieces[iam][s].end - pieces[iam][s].begin)`
(source lines 248-253). -/
def merge_length [Inhabited α] (comp : α → α → Bool) (input : List α) (T iam : Nat) : Nat :=
  ((List.range T).map (fun s =>
    piece_end comp input T iam s - piece_begin comp input T iam s)).sum

/-- Worker `iam`'s output offset under exact-mode pieces (the same loop,
source lines 248-253, reading the exact-mode `pieces`). -/
def merge_offset_exact (prim : Nat → Nat → Nat) (n T iam : Nat) : Nat :=
  ((List.range T).map (fun s => piece_begin_exact prim n T iam s)).sum

/-- Worker `iam`'s output length under exact-mode pieces (the same loop,
source lines 248-253, reading the exact-mode `pieces`). -/
def merge_length_exact (prim : Nat → Nat → Nat) (n T iam : Nat) : Nat :=
  ((List.range T).map (fun s =>
    piece_end_exact prim n T iam s - piece_begin_exact prim n T iam s)).sum

/-- The `T` sub-ranges worker `iam` merges (source lines 264-269):
`(sorting_places[s] + pieces[iam][s].begin, sorting_places[s] + pieces[iam][s].end)`. -/
def worker_seqs [Inhabited α] (comp : α → α → Bool) (input : List α) (T iam : Nat) :
    List (List α) :=
  (List.range T).map (fun s =>
    slice (sorting_place comp input T s) (piece_begin comp input T iam s)
      (piece_end comp input T iam s))

/-- Modelled from the spec: the k-way merge kernel `multiway_merge_base`
(`tlx/algorithm/parallel_multiway_merge.hpp`, not part of the sources at
hand) produces the merged stable/unstable ordering of its sorted input
ranges under the comparator.  For sorted inputs the stable merged ordering
is exactly the stable sort of the concatenation, which also serves as the
representative of the unstable ordering. -/
def multiway_merge (comp : α → α → Bool) (seqs : List (List α)) : List α :=
  List.insertionSort (leP comp) seqs.flatten

/-- Worker `iam`'s merged output segment (source line 271). -/
def worker_merged [Inhabited α] (comp : α → α → Bool) (input : List α) (T iam : Nat) : List α :=
  multiway_merge comp (worker_seqs comp input T iam)

/-- Writing a segment into a list at an offset: worker `iam` merges into
`sd->source + offset` (source lines 262, 271). -/
def write_seg (l : List α) (off : Nat) (seg : List α) : List α :=
  l.take off ++ seg ++ l.drop (off + seg.length)

/-- `parallel_mergesort` (source lines 293-340), default strategy
(`STXXL_MULTIWAY_MERGESORT_COPY_LAST` undefined) and the hard-wired sampling
mode.  The `Stable` template parameter selects `std::stable_sort` versus
`std::sort` in the local sort; both are modelled by the same stable sorted
permutation, so the model does not depend on it. -/
def parallel_mergesort [Inhabited α] (Stable : Bool) (comp : α → α → Bool)
    (input : List α) (num_threads : Nat) : List α :=
  if input.length ≤ 1 then input
  else
    let T := clamp_threads input.length num_threads
    (List.range T).foldl (fun acc iam =>
      write_seg acc (merge_offset comp input T iam) (worker_merged comp input T iam)) input

/-- Size (in elements) of the private sort buffer allocated by worker `iam`
under the copy-to-temporary (default) strategy, source line 157:
`::operator new (sizeof(ValueType) * (length_local + 1))` — one extra slot
is reserved for a sentinel. -/
def sort_buffer_size (length_local : Nat) : Nat := length_local + 1

/-- `x` and `v` are equivalent (tie) under the comparator: neither is
strictly ordered before the other. -/
def equiv_class (comp : α → α → Bool) (v x : α) : Bool := !comp x v && !comp v x

/-- A concrete comparator on `Nat` (used to instantiate theorems at concrete
inputs): the strict less-than test, as in the reference scenarios. -/
def natLt (a b : Nat) : Bool := decide (a < b)

/-! ### Strict-weak-ordering consequences -/

theorem natLt_swo : IsSWO natLt := by
  refine ⟨fun a => ?_, fun a b c h1 h2 => ?_, fun a b c h1 h2 => ?_⟩
  · simp [natLt]
  · simp only [natLt, decide_eq_true_eq] at *
    omega
  · simp only [natLt, decide_eq_false_iff_not] at *
    omega

theorem IsSWO.not_both {comp : α → α → Bool} (h : IsSWO comp) (a b : α) :
    comp a b = false ∨ comp b a = false := by
  by_cases hab : comp a b = true
  · by_cases hba : comp b a = true
    · have := h.trans a b a hab hba
      rw [h.irrefl a] at this
      exact absurd this (by simp)
    · exact Or.inr (by simpa using hba)
  · exact Or.inl (by simpa using hab)

/-- If `x` is ordered before `s`, and `s'` is not ordered before `s`, then
`x` is ordered before `s'` (climbing to a later splitter keeps strict
predecessors strict). -/
theorem IsSWO.before_trans_nbefore {comp : α → α → Bool} (h : IsSWO comp) {x s s' : α}
    (h1 : comp x s = true) (h2 : comp s' s = false) : comp x s' = true := by
  by_cases hxs : comp x s' = true
  · exact hxs
  · have hxs' : comp x s' = false := by simpa using hxs
    have := h.compl_trans x s' s hxs' h2
    rw [h1] at this
    exact absurd this (by simp)

/-- If `y` is ordered before `s`, and `s` is not ordered after `x`
(`comp x s = false` read as `s ≤ x`), then `y` is ordered before `x`. -/
theorem IsSWO.before_trans_le {comp : α → α → Bool} (h : IsSWO comp) {y s x : α}
    (h1 : comp y s = true) (h2 : comp x s = false) : comp y x = true := by
  by_cases hyx : comp y x = true
  · exact hyx
  · have hyx' : comp y x = false := by simpa using hyx
    have := h.compl_trans y x s hyx' h2
    rw [h1] at this
    exact absurd this (by simp)

theorem IsSWO.leP_total {comp : α → α → Bool} (h : IsSWO comp) : IsTotal α (leP comp) :=
  ⟨fun a b => by
    rcases h.not_both b a with hc | hc
    · exact Or.inl hc
    · exact Or.inr hc⟩

theorem IsSWO.leP_trans {comp : α → α → Bool} (h : IsSWO comp) : IsTrans α (leP comp) :=
  ⟨fun a b c hab hbc => h.compl_trans c b a hbc hab⟩

/-! ### The chunk boundaries `starts` -/

theorem startsF_zero (n T : Nat) : startsF n T 0 = 0 := rfl

theorem startsF_succ (n T i : Nat) :
    startsF n T (i + 1) = startsF n T i + chunk_size n T i := by
  simp [startsF, List.range_succ]

theorem startsF_closed (n T i : Nat) : startsF n T i = i * (n / T) + min i (n % T) := by
  induction i with
  | zero => simp [startsF]
  | succ i ih =>
    rw [startsF_succ, ih, chunk_size, Nat.succ_mul]
    by_cases hi : i < n % T <;> simp [hi] <;> omega

theorem startsF_last (n T : Nat) (hT : 1 ≤ T) : startsF n T T = n := by
  rw [startsF_closed]
  have hmod : n % T < T := Nat.mod_lt _ (by omega)
  have hdm : T * (n / T) + n % T = n := Nat.div_add_mod n T
  omega

theorem startsF_le_succ (n T i : Nat) : startsF n T i ≤ startsF n T (i + 1) := by
  rw [startsF_succ]; omega

theorem startsF_mono (n T : Nat) {i j : Nat} (hij : i ≤ j) :
    startsF n T i ≤ startsF n T j := by
  induction j with
  | zero =>
    have : i = 0 := by omega
    subst this; exact le_rfl
  | succ j ih =>
    rcases Nat.lt_or_ge i (j + 1) with hlt | hge
    · exact le_trans (ih (by omega)) (startsF_le_succ n T j)
    · have : i = j + 1 := by omega
      subst this; exact le_rfl

theorem chunk_len_eq (n T s : Nat) : chunk_len n T s = chunk_size n T s := by
  rw [chunk_len, startsF_succ]; omega

theorem startsF_le_length (n T : Nat) (hT : 1 ≤ T) {s : Nat} (hs : s ≤ T) :
    startsF n T s ≤ n := by
  have := startsF_mono n T hs
  rw [startsF_last n T hT] at this
  exact this

/-! ### Slice algebra -/

theorem length_slice (l : List α) (a b : Nat) :
    (slice l a b).length = min (b - a) (l.length - a) := by
  simp [slice]

theorem length_slice_of_le (l : List α) {a b : Nat} (hab : a ≤ b) (hb : b ≤ l.length) :
    (slice l a b).length = b - a := by
  rw [length_slice]; omega

theorem slice_append (l : List α) {a b c : Nat} (hab : a ≤ b) (hbc : b ≤ c) :
    slice l a b ++ slice l b c = slice l a c := by
  unfold slice
  have hdrop : l.drop b = (l.drop a).drop (b - a) := by
    rw [List.drop_drop]; congr 1; omega
  rw [hdrop, ← List.take_add]
  congr 1; omega

theorem slice_zero_eq_take (l : List α) (b : Nat) : slice l 0 b = l.take b := by
  simp [slice]

theorem slice_full (l : List α) : slice l 0 l.length = l := by
  rw [slice_zero_eq_take, List.take_length]

/-- Consecutive slices at monotone boundaries running from `0` to the full
length concatenate back to the list. -/
theorem flatten_slices (l : List α) (f : Nat → Nat) (T : Nat)
    (hmono : ∀ i, i < T → f i ≤ f (i + 1)) (h0 : f 0 = 0) (hT : f T = l.length) :
    ((List.range T).map (fun s => slice l (f s) (f (s + 1)))).flatten = l := by
  have hm : ∀ k, k ≤ T → f 0 ≤ f k := by
    intro k hk
    induction k with
    | zero => exact le_rfl
    | succ k ih => exact le_trans (ih (by omega)) (hmono k (by omega))
  have key : ∀ k, k ≤ T →
      ((List.range k).map (fun s => slice l (f s) (f (s + 1)))).flatten = slice l 0 (f k) := by
    intro k hk
    induction k with
    | zero => simp [slice, h0]
    | succ k ih =>
      rw [List.range_succ, List.map_append, List.flatten_append, ih (by omega)]
      simp only [List.map_cons, List.map_nil, List.flatten_cons, List.flatten_nil,
        List.append_nil]
      exact slice_append l (h0 ▸ hm k (by omega)) (hmono k (by omega))
  rw [key T le_rfl, hT, slice_full]

/-! ### Sortedness of the per-phase buffers, and `lower_bound` -/

theorem sorted_local_sort (comp : α → α → Bool) (h : IsSWO comp) (l : List α) :
    List.Sorted (leP comp) (local_sort comp l) := by
  haveI := h.leP_total
  haveI := h.leP_trans
  exact List.sorted_insertionSort (leP comp) l

theorem perm_local_sort (comp : α → α → Bool) (l : List α) :
    List.Perm (local_sort comp l) l :=
  List.perm_insertionSort (leP comp) l

theorem length_local_sort (comp : α → α → Bool) (l : List α) :
    (local_sort comp l).length = l.length :=
  List.length_insertionSort (leP comp) l

theorem sorted_sorting_place (comp : α → α → Bool) (h : IsSWO comp)
    (input : List α) (T s : Nat) :
    List.Sorted (leP comp) (sorting_place comp input T s) :=
  sorted_local_sort comp h _

theorem sorted_sorted_samples [Inhabited α] (comp : α → α → Bool) (h : IsSWO comp)
    (input : List α) (T : Nat) :
    List.Sorted (leP comp) (sorted_samples comp input T) :=
  sorted_local_sort comp h _

theorem length_sorting_place (comp : α → α → Bool) (input : List α) {T s : Nat}
    (hT : 1 ≤ T) (hs : s < T) :
    (sorting_place comp input T s).length = chunk_len input.length T s := by
  rw [sorting_place, length_local_sort,
    length_slice_of_le input (startsF_le_succ input.length T s)
      (startsF_le_length input.length T hT (by omega))]
  rfl

theorem length_samples [Inhabited α] (input : List α) (T : Nat) :
    (samples input T).length = T * num_samples T := by
  rw [samples, List.length_flatMap]
  have : ∀ iam ∈ List.range T,
      ((Function.comp List.length fun iam =>
        (List.range (num_samples T)).map (fun i => sample_value input T iam i)) iam)
        = num_samples T := by
    intro iam _
    simp
  rw [List.map_congr_left this]
  simp [List.map_const', Nat.mul_comm]

theorem length_sorted_samples [Inhabited α] (comp : α → α → Bool) (input : List α) (T : Nat) :
    (sorted_samples comp input T).length = T * num_samples T := by
  rw [sorted_samples, length_local_sort, length_samples]

theorem lower_bound_le_length (comp : α → α → Bool) (l : List α) (t : α) :
    lower_bound comp l t ≤ l.length :=
  (List.takeWhile_sublist _).length_le

theorem take_length_takeWhile (p : α → Bool) (l : List α) :
    l.take (l.takeWhile p).length = l.takeWhile p := by
  induction l with
  | nil => rfl
  | cons a l ih =>
    by_cases h : p a <;> simp [List.takeWhile_cons, h, ih]

theorem drop_length_takeWhile (p : α → Bool) (l : List α) :
    l.drop (l.takeWhile p).length = l.dropWhile p := by
  calc l.drop (l.takeWhile p).length
      = (l.takeWhile p ++ l.dropWhile p).drop (l.takeWhile p).length := by
        rw [List.takeWhile_append_dropWhile]
    _ = l.dropWhile p := List.drop_left _ _

/-- Elements of a sorted list beyond the `lower_bound` position are not
ordered before the search target. -/
theorem not_before_of_mem_dropWhile (comp : α → α → Bool) (h : IsSWO comp)
    {l : List α} (hs : List.Sorted (leP comp) l) {t y : α}
    (hy : y ∈ l.dropWhile (fun x => comp x t)) : comp y t = false := by
  induction l with
  | nil => simp at hy
  | cons a l ih =>
    rw [List.dropWhile_cons] at hy
    by_cases hpa : comp a t = true
    · simp only [hpa, if_true] at hy
      exact ih hs.of_cons hy
    · have hpa' : comp a t = false := by simpa using hpa
      simp only [hpa', Bool.false_eq_true, if_false] at hy
      rcases List.mem_cons.mp hy with rfl | hyl
      · exact hpa'
      · exact h.compl_trans y a t (List.rel_of_sorted_cons hs y hyl) hpa'

theorem length_takeWhile_le_of_imp {p q : α → Bool} (l : List α)
    (himp : ∀ x, p x = true → q x = true) :
    (l.takeWhile p).length ≤ (l.takeWhile q).length := by
  induction l with
  | nil => simp
  | cons a l ih =>
    by_cases hpa : p a = true
    · rw [List.takeWhile_cons, if_pos hpa, List.takeWhile_cons, if_pos (himp a hpa)]
      simpa using ih
    · rw [List.takeWhile_cons, if_neg (by simpa using hpa)]
      simp

/-- `lower_bound` is monotone in the target: a target that is not ordered
before another gives a position at least as large. -/
theorem lower_bound_mono (comp : α → α → Bool) (h : IsSWO comp) (l : List α)
    {t t' : α} (htt : comp t' t = false) :
    lower_bound comp l t ≤ lower_bound comp l t' :=
  length_takeWhile_le_of_imp l (fun x hx => h.before_trans_nbefore hx htt)

theorem slice_eq_take_drop (l : List α) {a b : Nat} (hab : a ≤ b) :
    slice l a b = (l.take b).drop a := by
  unfold slice
  rw [List.take_drop, Nat.add_sub_cancel' hab]

theorem slice_nil_of_le (l : List α) {a b : Nat} (hba : b ≤ a) : slice l a b = [] := by
  unfold slice
  rw [Nat.sub_eq_zero_of_le hba]
  rfl

/-- Every element of a slice ending at `lower_bound comp l t` is ordered
before `t`. -/
theorem before_of_mem_slice_to_lower_bound (comp : α → α → Bool) {l : List α}
    {t x : α} {a : Nat} (hx : x ∈ slice l a (lower_bound comp l t)) :
    comp x t = true := by
  rcases le_or_lt a (lower_bound comp l t) with hab | hab
  · rw [slice_eq_take_drop l hab] at hx
    have hx' : x ∈ l.take (lower_bound comp l t) := List.mem_of_mem_drop hx
    rw [lower_bound, take_length_takeWhile] at hx'
    have hp := List.mem_takeWhile_imp hx'
    simpa using hp
  · rw [slice_nil_of_le l (by omega)] at hx
    simp at hx

/-- No element of a sorted list's slice starting at `lower_bound comp l t`
is ordered before `t`. -/
theorem not_before_of_mem_slice_from_lower_bound (comp : α → α → Bool) (h : IsSWO comp)
    {l : List α} (hs : List.Sorted (leP comp) l) {t x : α} {b : Nat}
    (hx : x ∈ slice l (lower_bound comp l t) b) :
    comp x t = false := by
  have hx' : x ∈ l.drop (lower_bound comp l t) := List.mem_of_mem_take hx
  rw [lower_bound, drop_length_takeWhile] at hx'
  exact not_before_of_mem_dropWhile comp h hs hx'

/-! ### Case analysis of the sampling-mode piece boundaries -/

theorem num_samples_pos {T : Nat} (hT : 1 ≤ T) : 0 < num_samples T := by
  unfold num_samples sort_mwms_oversampling
  omega

theorem piece_begin_zero [Inhabited α] (comp : α → α → Bool) (input : List α) (T s : Nat) :
    piece_begin comp input T 0 s = 0 := by
  simp [piece_begin]

theorem piece_begin_of_pos [Inhabited α] (comp : α → α → Bool) (input : List α)
    {T iam : Nat} (s : Nat) (hT : 1 ≤ T) (hiam : 1 ≤ iam) :
    piece_begin comp input T iam s
      = lower_bound comp (sorting_place comp input T s) (splitter comp input T iam) := by
  rw [piece_begin, if_pos]
  exact Nat.mul_pos (num_samples_pos hT) hiam

theorem piece_end_last [Inhabited α] (comp : α → α → Bool) (input : List α)
    {T : Nat} (s : Nat) (hT : 1 ≤ T) :
    piece_end comp input T (T - 1) s = chunk_len input.length T s := by
  rw [piece_end, if_neg]
  have : T - 1 + 1 = T := by omega
  rw [this]
  omega

theorem piece_end_of_lt [Inhabited α] (comp : α → α → Bool) (input : List α)
    {T iam : Nat} (s : Nat) (hT : 1 ≤ T) (hiam : iam + 1 < T) :
    piece_end comp input T iam s
      = lower_bound comp (sorting_place comp input T s) (splitter comp input T (iam + 1)) := by
  rw [piece_end, if_pos]
  exact (Nat.mul_lt_mul_left (num_samples_pos hT)).mpr hiam

theorem piece_end_eq_begin_succ [Inhabited α] (comp : α → α → Bool) (input : List α)
    {T iam : Nat} (s : Nat) (hT : 1 ≤ T) (hiam : iam + 1 < T) :
    piece_end comp input T iam s = piece_begin comp input T (iam + 1) s := by
  rw [piece_end_of_lt comp input s hT hiam, piece_begin_of_pos comp input s hT (by omega)]

/-! ### Case analysis of the exact-mode piece boundaries -/

theorem piece_begin_exact_zero (prim : Nat → Nat → Nat) (n T s : Nat) :
    piece_begin_exact prim n T 0 s = 0 := by
  simp [piece_begin_exact]

theorem piece_end_exact_last (prim : Nat → Nat → Nat) (n T s : Nat) :
    piece_end_exact prim n T (T - 1) s = chunk_len n T s := by
  rw [piece_end_exact, if_neg]
  omega

theorem piece_end_exact_eq_begin_succ (prim : Nat → Nat → Nat) (n T : Nat) {iam : Nat}
    (s : Nat) (hiam : iam + 1 < T) :
    piece_end_exact prim n T iam s = piece_begin_exact prim n T (iam + 1) s := by
  rw [piece_begin_exact, if_pos (by omega)]
  simp

/-! ### Ordering of the splitters and well-formedness of the pieces -/

theorem getD_eq_get {l : List α} {i : Nat} (hi : i < l.length) (d : α) :
    l.getD i d = l.get ⟨i, hi⟩ := by
  simp [List.getD_eq_getElem?_getD, List.getElem?_eq_getElem hi]

/-- The splitters are drawn at increasing positions of the sorted sample
array, hence are themselves non-decreasing. -/
theorem splitter_le [Inhabited α] (comp : α → α → Bool) (h : IsSWO comp)
    (input : List α) {T j k : Nat} (hT : 1 ≤ T) (hjk : j ≤ k) (hk : k < T) :
    comp (splitter comp input T k) (splitter comp input T j) = false := by
  rcases eq_or_lt_of_le hjk with rfl | hlt
  · exact h.irrefl _
  · have hns := num_samples_pos hT
    have hjk' : num_samples T * j < num_samples T * k :=
      (Nat.mul_lt_mul_left hns).mpr hlt
    have hkLen : num_samples T * k < (sorted_samples comp input T).length := by
      rw [length_sorted_samples]
      calc num_samples T * k < num_samples T * T := (Nat.mul_lt_mul_left hns).mpr hk
        _ = T * num_samples T := Nat.mul_comm _ _
    have hjLen : num_samples T * j < (sorted_samples comp input T).length := by
      omega
    have hsorted := sorted_sorted_samples comp h input T
    have hrel := hsorted.rel_get_of_lt
      (a := ⟨num_samples T * j, hjLen⟩) (b := ⟨num_samples T * k, hkLen⟩) hjk'
    rw [splitter, splitter, getD_eq_get hjLen, getD_eq_get hkLen]
    exact hrel

theorem piece_end_le_chunk_len [Inhabited α] (comp : α → α → Bool) (input : List α)
    {T s : Nat} (iam : Nat) (hT : 1 ≤ T) (hs : s < T) :
    piece_end comp input T iam s ≤ chunk_len input.length T s := by
  rw [piece_end]
  split
  · calc lower_bound comp (sorting_place comp input T s) (splitter comp input T (iam + 1))
        ≤ (sorting_place comp input T s).length := lower_bound_le_length comp _ _
      _ = chunk_len input.length T s := length_sorting_place comp input hT hs
  · exact le_rfl

theorem piece_begin_le_piece_end [Inhabited α] (comp : α → α → Bool) (h : IsSWO comp)
    (input : List α) (T iam s : Nat) (hT : 1 ≤ T) (hiam : iam < T) (hs : s < T) :
    piece_begin comp input T iam s ≤ piece_end comp input T iam s := by
  rcases Nat.eq_zero_or_pos iam with rfl | hpos
  · rw [piece_begin_zero]
    exact Nat.zero_le _
  · rw [piece_begin_of_pos comp input s hT hpos]
    rcases Nat.lt_or_ge (iam + 1) T with hlt | hge
    · rw [piece_end_of_lt comp input s hT hlt]
      exact lower_bound_mono comp h _ (splitter_le comp h input hT (by omega) hlt)
    · have hlast : iam = T - 1 := by omega
      subst hlast
      rw [piece_end_last comp input s hT]
      calc lower_bound comp (sorting_place comp input T s) (splitter comp input T (T - 1))
          ≤ (sorting_place comp input T s).length := lower_bound_le_length comp _ _
        _ = chunk_len input.length T s := length_sorting_place comp input hT hs

/-! ### The merge offsets and lengths partition the output -/

theorem merge_offset_zero [Inhabited α] (comp : α → α → Bool) (input : List α) (T : Nat) :
    merge_offset comp input T 0 = 0 := by
  unfold merge_offset
  rw [List.map_congr_left (fun s _ => piece_begin_zero comp input T s)]
  simp

theorem merge_offset_succ [Inhabited α] (comp : α → α → Bool) (h : IsSWO comp)
    (input : List α) {T iam : Nat} (hT : 1 ≤ T) (hiam : iam + 1 < T) :
    merge_offset comp input T (iam + 1)
      = merge_offset comp input T iam + merge_length comp input T iam := by
  unfold merge_offset merge_length
  rw [List.map_congr_left (fun s hs =>
    (piece_end_eq_begin_succ comp input s hT hiam).symm)]
  rw [← List.sum_map_add]
  apply congrArg List.sum
  apply List.map_congr_left
  intro s hs
  have hbe := piece_begin_le_piece_end comp h input T iam s hT (by omega) (List.mem_range.mp hs)
  omega

theorem merge_last [Inhabited α] (comp : α → α → Bool) (h : IsSWO comp)
    (input : List α) {T : Nat} (hT : 1 ≤ T) :
    merge_offset comp input T (T - 1) + merge_length comp input T (T - 1)
      = input.length := by
  unfold merge_offset merge_length
  rw [← List.sum_map_add]
  have h1 : ∀ s ∈ List.range T,
      piece_begin comp input T (T - 1) s
        + (piece_end comp input T (T - 1) s - piece_begin comp input T (T - 1) s)
      = chunk_size input.length T s := by
    intro s hs
    have hsT := List.mem_range.mp hs
    have hbe := piece_begin_le_piece_end comp h input T (T - 1) s hT (by omega) hsT
    have hend := piece_end_last comp input s hT
    have hchunk := chunk_len_eq input.length T s
    omega
  rw [List.map_congr_left h1]
  exact startsF_last input.length T hT

theorem length_worker_merged [Inhabited α] (comp : α → α → Bool) (h : IsSWO comp)
    (input : List α) {T iam : Nat} (hT : 1 ≤ T) (hiam : iam < T) :
    (worker_merged comp input T iam).length = merge_length comp input T iam := by
  unfold worker_merged multiway_merge
  rw [List.length_insertionSort, List.length_flatten]
  unfold worker_seqs merge_length
  rw [List.map_map]
  apply congrArg List.sum
  apply List.map_congr_left
  intro s hs
  have hsT := List.mem_range.mp hs
  have hbe := piece_begin_le_piece_end comp h input T iam s hT hiam hsT
  have hel : piece_end comp input T iam s ≤ (sorting_place comp input T s).length := by
    rw [length_sorting_place comp input hT hsT]
    exact piece_end_le_chunk_len comp input iam hT hsT
  simp only [Function.comp_apply]
  rw [length_slice]
  omega

/-- C3: each worker's computed output length equals the length of its merged
output segment, its output offset is the sum of its piece begins
(definitionally, as the code computes it), and the output segments
`[offset_iam, offset_iam + length_iam)` partition `[0, n)` in worker-id
order with no gaps: worker `0` starts at `0`, each next worker starts where
the previous one ends, and the last worker ends at `n`. -/
theorem worker_segments_partition_output [Inhabited α] (comp : α → α → Bool)
    (input : List α) (T : Nat) (h : IsSWO comp) (hT : 1 ≤ T) :
    (∀ iam, iam < T →
      merge_length comp input T iam = (worker_merged comp input T iam).length)
    ∧ (∀ iam, merge_offset comp input T iam
        = ((List.range T).map (fun s => piece_begin comp input T iam s)).sum)
    ∧ merge_offset comp input T 0 = 0
    ∧ (∀ iam, iam + 1 < T → merge_offset comp input T (iam + 1)
        = merge_offset comp input T iam + merge_length comp input T iam)
    ∧ merge_offset comp input T (T - 1) + merge_length comp input T (T - 1)
        = input.length := by
  exact ⟨fun iam hiam => (length_worker_merged comp h input hT hiam).symm,
    fun iam => rfl,
    merge_offset_zero comp input T,
    fun iam hiam => merge_offset_succ comp h input hT hiam,
    merge_last comp h input hT⟩

theorem worker_segments_partition_output_witness :
    (∀ iam, iam < 2 →
      merge_length natLt [5, 3, 4, 1, 2] 2 iam = (worker_merged natLt [5, 3, 4, 1, 2] 2 iam).length)
    ∧ (∀ iam, merge_offset natLt [5, 3, 4, 1, 2] 2 iam
        = ((List.range 2).map (fun s => piece_begin natLt [5, 3, 4, 1, 2] 2 iam s)).sum)
    ∧ merge_offset natLt [5, 3, 4, 1, 2] 2 0 = 0
    ∧ (∀ iam, iam + 1 < 2 → merge_offset natLt [5, 3, 4, 1, 2] 2 (iam + 1)
        = merge_offset natLt [5, 3, 4, 1, 2] 2 iam + merge_length natLt [5, 3, 4, 1, 2] 2 iam)
    ∧ merge_offset natLt [5, 3, 4, 1, 2] 2 (2 - 1) + merge_length natLt [5, 3, 4, 1, 2] 2 (2 - 1)
        = ([5, 3, 4, 1, 2] : List Nat).length :=
  worker_segments_partition_output natLt [5, 3, 4, 1, 2] 2 natLt_swo (by decide)

/-- C2: after splitting, for every chunk `s` and in both splitting modes,
`pieces[0][s].begin = 0`, `pieces[T-1][s].end` is the length of chunk `s`,
and `pieces[iam][s].end = pieces[iam+1][s].begin` for `iam+1 < T`: the
pieces of each chunk tile it across the workers with no gap or overlap. -/
theorem pieces_tile_each_chunk [Inhabited α] (comp : α → α → Bool) (input : List α)
    (T : Nat) (prim : Nat → Nat → Nat) (hT : 1 ≤ T) :
    (∀ s, piece_begin comp input T 0 s = 0
      ∧ piece_end comp input T (T - 1) s = chunk_len input.length T s
      ∧ ∀ iam, iam + 1 < T →
          piece_end comp input T iam s = piece_begin comp input T (iam + 1) s)
    ∧ (∀ s, piece_begin_exact prim input.length T 0 s = 0
      ∧ piece_end_exact prim input.length T (T - 1) s = chunk_len input.length T s
      ∧ ∀ iam, iam + 1 < T →
          piece_end_exact prim input.length T iam s
            = piece_begin_exact prim input.length T (iam + 1) s) := by
  constructor
  · intro s
    exact ⟨piece_begin_zero comp input T s, piece_end_last comp input s hT,
      fun iam hiam => piece_end_eq_begin_succ comp input s hT hiam⟩
  · intro s
    exact ⟨piece_begin_exact_zero prim input.length T s,
      piece_end_exact_last prim input.length T s,
      fun iam hiam => piece_end_exact_eq_begin_succ prim input.length T s hiam⟩

theorem pieces_tile_each_chunk_witness :
    (∀ s, piece_begin natLt [3, 1, 2] 2 0 s = 0
      ∧ piece_end natLt [3, 1, 2] 2 (2 - 1) s = chunk_len 3 2 s
      ∧ ∀ iam, iam + 1 < 2 →
          piece_end natLt [3, 1, 2] 2 iam s = piece_begin natLt [3, 1, 2] 2 (iam + 1) s)
    ∧ (∀ s, piece_begin_exact (fun _ _ => 0) 3 2 0 s = 0
      ∧ piece_end_exact (fun _ _ => 0) 3 2 (2 - 1) s = chunk_len 3 2 s
      ∧ ∀ iam, iam + 1 < 2 →
          piece_end_exact (fun _ _ => 0) 3 2 iam s
            = piece_begin_exact (fun _ _ => 0) 3 2 (iam + 1) s) := by
  have h := pieces_tile_each_chunk natLt [3, 1, 2] 2 (fun _ _ => 0) (by decide)
  simpa using h

/-- C5: for an input of length `n ≥ 2` and a positive requested thread
count, `parallel_mergesort` clamps `T = min(T_req, n)`; with
`chunk = n / T` and `rem = n % T`, the first `rem` workers receive
`chunk + 1` elements and the rest `chunk`; `starts` is the running sum of
these sizes, `starts 0 = 0`, `starts T = n`, and `starts` is monotone, so
the chunks tile `[0, n)` — concretely, the chunk slices concatenate back to
the input. -/
theorem range_partitioner_contract (input : List α) (T_req T n : Nat)
    (hlen : input.length = n) (hn : 2 ≤ n) (hreq : 1 ≤ T_req)
    (hT : T = clamp_threads n T_req) :
    T = min T_req n
    ∧ 1 ≤ T ∧ T ≤ n
    ∧ (∀ i, chunk_size n T i = if i < n % T then n / T + 1 else n / T)
    ∧ (∀ i, startsF n T (i + 1) = startsF n T i + chunk_size n T i)
    ∧ startsF n T 0 = 0
    ∧ startsF n T T = n
    ∧ (∀ i j, i ≤ j → startsF n T i ≤ startsF n T j)
    ∧ ((List.range T).map (fun s =>
        slice input (startsF n T s) (startsF n T (s + 1)))).flatten = input := by
  have hTmin : T = min T_req n := by
    subst hT
    unfold clamp_threads
    rcases Nat.lt_or_ge n T_req with h | h
    · rw [if_pos h]; omega
    · rw [if_neg (by omega)]; omega
  have hT1 : 1 ≤ T := by omega
  have hTn : T ≤ n := by omega
  refine ⟨hTmin, hT1, hTn, fun i => rfl, fun i => startsF_succ n T i, rfl,
    startsF_last n T hT1, fun i j hij => startsF_mono n T hij, ?_⟩
  exact flatten_slices input (startsF n T) T (fun i _ => startsF_le_succ n T i) rfl
    (by rw [startsF_last n T hT1, hlen])

theorem range_partitioner_contract_witness :
    (2 : Nat) = min 2 5
    ∧ 1 ≤ 2 ∧ 2 ≤ 5
    ∧ (∀ i, chunk_size 5 2 i = if i < 5 % 2 then 5 / 2 + 1 else 5 / 2)
    ∧ (∀ i, startsF 5 2 (i + 1) = startsF 5 2 i + chunk_size 5 2 i)
    ∧ startsF 5 2 0 = 0
    ∧ startsF 5 2 2 = 5
    ∧ (∀ i j, i ≤ j → startsF 5 2 i ≤ startsF 5 2 j)
    ∧ ((List.range 2).map (fun s =>
        slice [5, 3, 4, 1, 2] (startsF 5 2 s) (startsF 5 2 (s + 1)))).flatten
      = [5, 3, 4, 1, 2] :=
  range_partitioner_contract ([5, 3, 4, 1, 2] : List Nat) 2 2 5 (by decide) (by decide)
    (by decide) (by decide)

/-- C8: for inputs of length at most one, `parallel_mergesort` returns at
once and leaves the sequence unchanged (source lines 300-303: the early
return precedes every allocation and the parallel region). -/
theorem small_input_no_op [Inhabited α] (Stable : Bool) (comp : α → α → Bool)
    (input : List α) (num_threads : Nat) (h : input.length ≤ 1) :
    parallel_mergesort Stable comp input num_threads = input := by
  rw [parallel_mergesort, if_pos h]

theorem small_input_no_op_witness :
    parallel_mergesort true natLt [7] 4 = [7] ∧ parallel_mergesort false natLt ([] : List Nat) 3 = [] :=
  ⟨small_input_no_op true natLt [7] 4 (by decide),
   small_input_no_op false natLt [] 3 (by decide)⟩

/-- C10 fails as stated: the private sort buffer of a worker under the
copy-to-temporary strategy has `length_local + 1` slots (source line 157
reserves space for a sentinel), not exactly the chunk length.  Concretely,
for `n = 5`, `T = 2`, worker `0` has chunk length `3` but a buffer of `4`
elements. -/
theorem sort_buffer_not_exact_chunk_length :
    chunk_len 5 2 0 = 3 ∧ sort_buffer_size (chunk_len 5 2 0) = 4 := by
  constructor <;> decide

/-- C10 amended: the freshly allocated private sort buffer has exactly
chunk length plus one slots (the extra slot reserved for a sentinel); the
worker copies its sub-range — whose length is exactly its chunk length —
into it and sorts it there. -/
theorem sort_buffer_sentinel_size (comp : α → α → Bool) (input : List α)
    (T s : Nat) (hT : 1 ≤ T) (hs : s < T) :
    sort_buffer_size (chunk_len input.length T s) = chunk_len input.length T s + 1
    ∧ (slice input (startsF input.length T s) (startsF input.length T (s + 1))).length
        = chunk_len input.length T s
    ∧ sorting_place comp input T s
        = local_sort comp (slice input (startsF input.length T s)
            (startsF input.length T (s + 1))) := by
  refine ⟨rfl, ?_, rfl⟩
  rw [length_slice_of_le input (startsF_le_succ input.length T s)
    (startsF_le_length input.length T hT (by omega)), chunk_len]

theorem sort_buffer_sentinel_size_witness :
    sort_buffer_size (chunk_len 5 2 0) = chunk_len 5 2 0 + 1
    ∧ (slice [5, 3, 4, 1, 2] (startsF 5 2 0) (startsF 5 2 (0 + 1))).length = chunk_len 5 2 0
    ∧ sorting_place natLt [5, 3, 4, 1, 2] 2 0
        = local_sort natLt (slice [5, 3, 4, 1, 2] (startsF 5 2 0) (startsF 5 2 (0 + 1))) := by
  have h := sort_buffer_sentinel_size natLt ([5, 3, 4, 1, 2] : List Nat) 2 0
    (by decide) (by decide)
  simpa using h

/-- C9 fails as stated: the splitting mode is not a per-call configuration
option; both `parallel_mergesort` (source line 313) and
`parallel_sort_mwms_pu` (source line 170) fix it as the local constant
`MWMSA_SAMPLING`, independent of every call parameter. -/
theorem splitting_mode_hardcoded :
    mwmsa = MultiwayMergeSplittingAlgorithm.MWMSA_SAMPLING := rfl

/-! ### Writing the worker segments back at their offsets -/

/-- Folding `write_seg` over workers whose offsets are the exact partial
sums of the segment lengths, with total length filling the base, replaces
the base by the concatenation of the segments. -/
theorem foldl_write_seg (outs : Nat → List α) (f : Nat → Nat) (base : List α) (T : Nat)
    (hf : ∀ i, i < T → f i = ((List.range i).map (fun j => (outs j).length)).sum)
    (hlen : base.length = ((List.range T).map (fun j => (outs j).length)).sum) :
    (List.range T).foldl (fun acc i => write_seg acc (f i) (outs i)) base
      = ((List.range T).map outs).flatten := by
  have key : ∀ k, k ≤ T →
      (List.range k).foldl (fun acc i => write_seg acc (f i) (outs i)) base
        = ((List.range k).map outs).flatten
          ++ base.drop (((List.range k).map (fun j => (outs j).length)).sum) := by
    intro k hk
    induction k with
    | zero => simp
    | succ k ih =>
      rw [List.range_succ, List.foldl_append, ih (by omega)]
      simp only [List.foldl_cons, List.foldl_nil, List.map_append, List.flatten_append,
        List.map_cons, List.map_nil, List.flatten_cons, List.flatten_nil, List.append_nil,
        List.sum_append, List.sum_cons, List.sum_nil]
      rw [write_seg]
      have hflen : (((List.range k).map outs).flatten).length
          = ((List.range k).map (fun j => (outs j).length)).sum := by
        rw [List.length_flatten, List.map_map]
        rfl
      rw [← hf k (by omega)] at hflen
      rw [List.take_left' hflen]
      have hdrop : (((List.range k).map outs).flatten
            ++ base.drop (((List.range k).map (fun j => (outs j).length)).sum)).drop
              (f k + (outs k).length)
          = base.drop (((List.range k).map (fun j => (outs j).length)).sum
              + ((outs k).length + 0)) := by
        rw [List.drop_append_eq_append_drop]
        have h1 : f k ≤ (((List.range k).map outs).flatten).length := by omega
        rw [List.drop_eq_nil_of_le (by omega)]
        rw [List.nil_append, List.drop_drop]
        congr 1
        omega
      rw [hdrop, List.append_assoc]
  have hfin := key T le_rfl
  rw [hfin, ← hlen, List.drop_length, List.append_nil]

/-! ### The merged output is a permutation of the input -/

theorem flatten_map_perm_congr (l : List β) (f g : β → List α)
    (hfg : ∀ b ∈ l, List.Perm (f b) (g b)) :
    List.Perm ((l.map f).flatten) ((l.map g).flatten) := by
  induction l with
  | nil => simp
  | cons b l ih =>
    simp only [List.map_cons, List.flatten_cons]
    exact (hfg b (List.mem_cons_self b l)).append
      (ih (fun c hc => hfg c (List.mem_cons_of_mem b hc)))

theorem flatten_map_append_perm (l : List β) (g k : β → List α) :
    List.Perm ((l.map (fun b => g b ++ k b)).flatten)
      (((l.map g).flatten) ++ ((l.map k).flatten)) := by
  induction l with
  | nil => simp
  | cons b l ih =>
    simp only [List.map_cons, List.flatten_cons]
    have p2 : List.Perm ((g b ++ k b) ++ (((l.map g).flatten) ++ ((l.map k).flatten)))
        ((g b ++ ((l.map g).flatten)) ++ (k b ++ ((l.map k).flatten))) := by
      simp only [List.append_assoc]
      apply List.Perm.append_left
      rw [← List.append_assoc, ← List.append_assoc]
      exact List.perm_append_comm.append_right _
    exact (ih.append_left _).trans p2

/-- The double concatenation over workers of chunks is a permutation of the
double concatenation over chunks of workers. -/
theorem flatten_map_swap (a : List β) (b : List γ) (f : β → γ → List α) :
    List.Perm ((a.map (fun i => (b.map (fun s => f i s)).flatten)).flatten)
      ((b.map (fun s => (a.map (fun i => f i s)).flatten)).flatten) := by
  induction a with
  | nil =>
    simp only [List.map_nil, List.flatten_nil]
    have hnil : (b.map (fun _ => ([] : List α))).flatten = [] := by
      induction b with
      | nil => rfl
      | cons c b ihb => simp [ihb]
    rw [hnil]
  | cons i a ih =>
    simp only [List.map_cons, List.flatten_cons]
    have p2 := (flatten_map_append_perm b (fun s => f i s)
      (fun s => (a.map (fun j => f j s)).flatten)).symm
    exact (ih.append_left _).trans p2

/-- Within one chunk, the worker pieces concatenate back to the whole sorted
chunk. -/
theorem flatten_pieces_eq_sorting_place [Inhabited α] (comp : α → α → Bool)
    (h : IsSWO comp) (input : List α) {T s : Nat} (hT : 1 ≤ T) (hs : s < T) :
    ((List.range T).map (fun iam =>
      slice (sorting_place comp input T s) (piece_begin comp input T iam s)
        (piece_end comp input T iam s))).flatten
    = sorting_place comp input T s := by
  have hcongr : ∀ iam ∈ List.range T,
      slice (sorting_place comp input T s) (piece_begin comp input T iam s)
        (piece_end comp input T iam s)
      = slice (sorting_place comp input T s)
          ((fun i => if i < T then piece_begin comp input T i s
            else chunk_len input.length T s) iam)
          ((fun i => if i < T then piece_begin comp input T i s
            else chunk_len input.length T s) (iam + 1)) := by
    intro iam hiam
    have hiamT := List.mem_range.mp hiam
    simp only [if_pos hiamT]
    rcases Nat.lt_or_ge (iam + 1) T with hlt | hge
    · rw [if_pos hlt, piece_end_eq_begin_succ comp input s hT hlt]
    · rw [if_neg (by omega)]
      have hlast : iam = T - 1 := by omega
      subst hlast
      rw [piece_end_last comp input s hT]
  rw [List.map_congr_left hcongr]
  apply flatten_slices
  · intro i hi
    simp only [if_pos hi]
    rcases Nat.lt_or_ge (i + 1) T with hlt | hge
    · rw [if_pos hlt, ← piece_end_eq_begin_succ comp input s hT hlt]
      exact piece_begin_le_piece_end comp h input T i s hT hi (by omega)
    · rw [if_neg (by omega)]
      have hlast : i = T - 1 := by omega
      subst hlast
      rw [← piece_end_last comp input s hT]
      exact piece_begin_le_piece_end comp h input T (T - 1) s hT (by omega) (by omega)
  · rw [if_pos (by omega), piece_begin_zero]
  · rw [if_neg (by omega)]
    exact (length_sorting_place comp input hT hs).symm

/-- The concatenation of all workers' merged segments is a permutation of
the input. -/
theorem flatten_worker_merged_perm [Inhabited α] (comp : α → α → Bool)
    (h : IsSWO comp) (input : List α) {T : Nat} (hT : 1 ≤ T) :
    List.Perm (((List.range T).map (fun iam => worker_merged comp input T iam)).flatten)
      input := by
  have p1 : List.Perm
      (((List.range T).map (fun iam => worker_merged comp input T iam)).flatten)
      (((List.range T).map (fun iam => (worker_seqs comp input T iam).flatten)).flatten) :=
    flatten_map_perm_congr _ _ _ (fun iam _ => perm_local_sort comp _)
  have p2 : List.Perm
      (((List.range T).map (fun iam => (worker_seqs comp input T iam).flatten)).flatten)
      (((List.range T).map (fun s =>
        ((List.range T).map (fun iam =>
          slice (sorting_place comp input T s) (piece_begin comp input T iam s)
            (piece_end comp input T iam s))).flatten)).flatten) := by
    unfold worker_seqs
    exact flatten_map_swap (List.range T) (List.range T) _
  have p3 : (((List.range T).map (fun s =>
        ((List.range T).map (fun iam =>
          slice (sorting_place comp input T s) (piece_begin comp input T iam s)
            (piece_end comp input T iam s))).flatten)).flatten)
      = ((List.range T).map (fun s => sorting_place comp input T s)).flatten := by
    apply congrArg List.flatten
    apply List.map_congr_left
    intro s hs
    exact flatten_pieces_eq_sorting_place comp h input hT (List.mem_range.mp hs)
  have p4 : List.Perm
      (((List.range T).map (fun s => sorting_place comp input T s)).flatten)
      (((List.range T).map (fun s =>
        slice input (startsF input.length T s) (startsF input.length T (s + 1)))).flatten) :=
    flatten_map_perm_congr _ _ _ (fun s _ => perm_local_sort comp _)
  have p5 : (((List.range T).map (fun s =>
        slice input (startsF input.length T s) (startsF input.length T (s + 1)))).flatten)
      = input :=
    flatten_slices input (startsF input.length T) T
      (fun i _ => startsF_le_succ input.length T i) rfl (startsF_last input.length T hT)
  rw [p3] at p2
  rw [p5] at p4
  exact (p1.trans p2).trans p4

/-! ### The merged output is sorted -/

theorem sorted_flatten_of_cross {r : α → α → Prop} {L : List (List α)}
    (hsi : ∀ l ∈ L, List.Sorted r l)
    (hcross : L.Pairwise (fun p q => ∀ x ∈ p, ∀ y ∈ q, r x y)) :
    List.Sorted r L.flatten := by
  induction L with
  | nil => exact List.sorted_nil
  | cons l L ih =>
    rw [List.flatten_cons]
    rw [List.Sorted, List.pairwise_append]
    refine ⟨hsi l (List.mem_cons_self l L),
      ih (fun q hq => hsi q (List.mem_cons_of_mem l hq)) hcross.of_cons, ?_⟩
    intro x hx y hy
    rcases List.mem_flatten.mp hy with ⟨q, hqL, hyq⟩
    exact (List.rel_of_pairwise_cons hcross hqL) x hx y hyq

/-- Everything a worker merges precedes (in the induced non-strict order)
everything a later worker merges: an element of worker `i`'s pieces is
strictly below splitter `i+1`, an element of worker `j`'s pieces is not
below splitter `j`, and the splitters are ordered. -/
theorem worker_cross_le [Inhabited α] (comp : α → α → Bool) (h : IsSWO comp)
    (input : List α) (T i j : Nat) (hT : 1 ≤ T) (hij : i < j) (hjT : j < T)
    {x y : α} (hx : x ∈ (worker_seqs comp input T i).flatten)
    (hy : y ∈ (worker_seqs comp input T j).flatten) :
    leP comp x y := by
  rcases List.mem_flatten.mp hx with ⟨px, hpx, hxpx⟩
  rcases List.mem_map.mp hpx with ⟨s, hs, rfl⟩
  rcases List.mem_flatten.mp hy with ⟨py, hpy, hypy⟩
  rcases List.mem_map.mp hpy with ⟨s2, hs2, rfl⟩
  have hiT : i + 1 < T := by omega
  rw [piece_end_of_lt comp input s hT hiT] at hxpx
  have hxσ : comp x (splitter comp input T (i + 1)) = true :=
    before_of_mem_slice_to_lower_bound comp hxpx
  have hj1 : 1 ≤ j := by omega
  rw [piece_begin_of_pos comp input s2 hT hj1] at hypy
  have hyσ : comp y (splitter comp input T j) = false :=
    not_before_of_mem_slice_from_lower_bound comp h
      (sorted_sorting_place comp h input T s2) hypy
  have hσσ : comp (splitter comp input T j) (splitter comp input T (i + 1)) = false :=
    splitter_le comp h input hT (by omega) hjT
  have hxσj : comp x (splitter comp input T j) = true := h.before_trans_nbefore hxσ hσσ
  have hxy : comp x y = true := h.before_trans_le hxσj hyσ
  by_cases hyx : comp y x = true
  · have hcontra := h.trans y x y hyx hxy
    rw [h.irrefl y] at hcontra
    exact absurd hcontra (by simp)
  · simpa [leP] using hyx

theorem sorted_flatten_workers [Inhabited α] (comp : α → α → Bool) (h : IsSWO comp)
    (input : List α) {T : Nat} (hT : 1 ≤ T) :
    List.Sorted (leP comp)
      (((List.range T).map (fun iam => worker_merged comp input T iam)).flatten) := by
  apply sorted_flatten_of_cross
  · intro l hl
    rcases List.mem_map.mp hl with ⟨iam, _, rfl⟩
    exact sorted_local_sort comp h _
  · rw [List.pairwise_map]
    apply (List.pairwise_lt_range T).imp_of_mem
    intro i j hi hj hij x hx y hy
    have hjT := List.mem_range.mp hj
    have hx' : x ∈ (worker_seqs comp input T i).flatten :=
      (perm_local_sort comp _).mem_iff.mp hx
    have hy' : y ∈ (worker_seqs comp input T j).flatten :=
      (perm_local_sort comp _).mem_iff.mp hy
    exact worker_cross_le comp h input T i j hT hij hjT hx' hy'

/-! ### The final fold equals the concatenation of the worker segments -/

theorem merge_offset_eq_partial_sum [Inhabited α] (comp : α → α → Bool) (h : IsSWO comp)
    (input : List α) {T : Nat} (hT : 1 ≤ T) :
    ∀ i, i < T → merge_offset comp input T i
      = ((List.range i).map (fun j => (worker_merged comp input T j).length)).sum := by
  intro i
  induction i with
  | zero =>
    intro _
    simpa using merge_offset_zero comp input T
  | succ i ih =>
    intro hiT
    rw [merge_offset_succ comp h input hT hiT, ih (by omega), List.range_succ,
      List.map_append, List.sum_append]
    simp [length_worker_merged comp h input hT (show i < T by omega)]

theorem total_length_eq_sum_worker_merged [Inhabited α] (comp : α → α → Bool)
    (h : IsSWO comp) (input : List α) {T : Nat} (hT : 1 ≤ T) :
    input.length
      = ((List.range T).map (fun j => (worker_merged comp input T j).length)).sum := by
  have hTsub : T - 1 + 1 = T := by omega
  have h1 := merge_last comp h input hT
  have h2 := merge_offset_eq_partial_sum comp h input hT (T - 1) (by omega)
  have h3 := length_worker_merged comp h input hT (show T - 1 < T by omega)
  calc input.length
      = merge_offset comp input T (T - 1) + merge_length comp input T (T - 1) := h1.symm
    _ = ((List.range (T - 1)).map (fun j => (worker_merged comp input T j).length)).sum
        + (worker_merged comp input T (T - 1)).length := by rw [h2, ← h3]
    _ = ((List.range T).map (fun j => (worker_merged comp input T j).length)).sum := by
        rw [← hTsub, List.range_succ, List.map_append, List.sum_append]
        simp

theorem parallel_mergesort_eq_flatten [Inhabited α] (Stable : Bool) (comp : α → α → Bool)
    (input : List α) (num_threads : Nat) (h : IsSWO comp) (hnt : 1 ≤ num_threads)
    (hbig : ¬ input.length ≤ 1) :
    parallel_mergesort Stable comp input num_threads
      = ((List.range (clamp_threads input.length num_threads)).map
          (fun iam => worker_merged comp input
            (clamp_threads input.length num_threads) iam)).flatten := by
  have hT : 1 ≤ clamp_threads input.length num_threads := by
    unfold clamp_threads
    split <;> omega
  rw [parallel_mergesort, if_neg hbig]
  exact foldl_write_seg _ _ input _
    (fun i hi => merge_offset_eq_partial_sum comp h input hT i hi)
    (total_length_eq_sum_worker_merged comp h input hT)

/-- C1: for every input sequence, strict-weak-ordering comparator, stability
flag, and positive requested thread count, `parallel_mergesort` returns a
sequence that is non-decreasing under the comparator and is a permutation of
the input (hence has the same multiset of elements). -/
theorem parallel_mergesort_sorts_perm [Inhabited α] (Stable : Bool) (comp : α → α → Bool)
    (input : List α) (num_threads : Nat) (h : IsSWO comp) (hnt : 1 ≤ num_threads) :
    List.Sorted (leP comp) (parallel_mergesort Stable comp input num_threads)
    ∧ List.Perm (parallel_mergesort Stable comp input num_threads) input := by
  by_cases hsmall : input.length ≤ 1
  · rw [parallel_mergesort, if_pos hsmall]
    refine ⟨?_, List.Perm.refl _⟩
    match input, hsmall with
    | [], _ => exact List.sorted_nil
    | [a], _ => exact List.sorted_singleton a
  · have hT : 1 ≤ clamp_threads input.length num_threads := by
      unfold clamp_threads
      split <;> omega
    rw [parallel_mergesort_eq_flatten Stable comp input num_threads h hnt hsmall]
    exact ⟨sorted_flatten_workers comp h input hT,
      flatten_worker_merged_perm comp h input hT⟩

theorem parallel_mergesort_sorts_perm_witness :
    (List.Sorted (leP natLt) (parallel_mergesort true natLt [5, 3, 4, 1, 2] 2)
      ∧ List.Perm (parallel_mergesort true natLt [5, 3, 4, 1, 2] 2) [5, 3, 4, 1, 2])
    ∧ parallel_mergesort true natLt [5, 3, 4, 1, 2] 2 = [1, 2, 3, 4, 5] :=
  ⟨parallel_mergesort_sorts_perm true natLt [5, 3, 4, 1, 2] 2 natLt_swo (by decide),
   by decide⟩

/-! ### Stability: tie-classes traverse the pipeline in input order -/

theorem equiv_class_iff {comp : α → α → Bool} {v x : α} :
    equiv_class comp v x = true ↔ comp x v = false ∧ comp v x = false := by
  simp [equiv_class]

/-- Members of one tie-class compare identically against every probe. -/
theorem class_compare_eq (comp : α → α → Bool) (h : IsSWO comp) {v x : α}
    (hec : equiv_class comp v x = true) (t : α) : comp x t = comp v t := by
  rcases equiv_class_iff.mp hec with ⟨hxv, hvx⟩
  cases hxt : comp x t <;> cases hvt : comp v t
  · rfl
  · have := h.compl_trans v x t hvx hxt
    rw [hvt] at this
    exact absurd this (by simp)
  · have := h.compl_trans x v t hxv hvt
    rw [hxt] at this
    exact absurd this (by simp)
  · rfl

theorem class_pairwise_le (comp : α → α → Bool) (h : IsSWO comp) {v x y : α}
    (hx : equiv_class comp v x = true) (hy : equiv_class comp v y = true) :
    leP comp x y := by
  show comp y x = false
  rw [class_compare_eq comp h hy x]
  exact (equiv_class_iff.mp hx).2

/-- Stability of the modelled sorts: filtering one tie-class out of an
insertion-sorted list gives the class subsequence of the original list, in
the original order. -/
theorem filter_class_insertionSort (comp : α → α → Bool) (h : IsSWO comp)
    (l : List α) (v : α) :
    (List.insertionSort (leP comp) l).filter (equiv_class comp v)
      = l.filter (equiv_class comp v) := by
  have hsub : List.Sublist (l.filter (equiv_class comp v)) l := List.filter_sublist l
  have hpair : (l.filter (equiv_class comp v)).Pairwise (leP comp) := by
    apply List.pairwise_of_forall_mem_list
    intro a ha b hb
    exact class_pairwise_le comp h (List.mem_filter.mp ha).2 (List.mem_filter.mp hb).2
  have hstable : List.Sublist (l.filter (equiv_class comp v))
      (List.insertionSort (leP comp) l) :=
    List.sublist_insertionSort hpair hsub
  have hss : List.Sublist (l.filter (equiv_class comp v))
      ((List.insertionSort (leP comp) l).filter (equiv_class comp v)) := by
    have heq : (l.filter (equiv_class comp v)).filter (equiv_class comp v)
        = l.filter (equiv_class comp v) := by
      rw [List.filter_eq_self]
      intro a ha
      exact (List.mem_filter.mp ha).2
    rw [← heq]
    exact hstable.filter _
  have hlen : ((List.insertionSort (leP comp) l).filter (equiv_class comp v)).length
      = (l.filter (equiv_class comp v)).length :=
    ((List.perm_insertionSort (leP comp) l).filter _).length_eq
  exact (hss.eq_of_length (by omega)).symm

theorem filter_class_local_sort (comp : α → α → Bool) (h : IsSWO comp)
    (l : List α) (v : α) :
    (local_sort comp l).filter (equiv_class comp v) = l.filter (equiv_class comp v) :=
  filter_class_insertionSort comp h l v

/-- When the class lies strictly before the probe `σ`, the class subsequence
of a sorted list lives entirely in the `takeWhile` prefix. -/
theorem filter_class_dropWhile_of_before (comp : α → α → Bool) (h : IsSWO comp)
    {c : List α} (hc : List.Sorted (leP comp) c) {v σ : α} (hv : comp v σ = true) :
    (c.dropWhile (fun x => comp x σ)).filter (equiv_class comp v) = [] := by
  rw [List.filter_eq_nil_iff]
  intro a ha hec
  have haσ : comp a σ = false := not_before_of_mem_dropWhile comp h hc ha
  rw [class_compare_eq comp h hec σ, hv] at haσ
  exact absurd haσ (by simp)

theorem filter_class_takeWhile_of_before (comp : α → α → Bool) (h : IsSWO comp)
    {c : List α} (hc : List.Sorted (leP comp) c) {v σ : α} (hv : comp v σ = true) :
    (c.takeWhile (fun x => comp x σ)).filter (equiv_class comp v)
      = c.filter (equiv_class comp v) := by
  conv_rhs => rw [← List.takeWhile_append_dropWhile (p := fun x => comp x σ) (l := c)]
  rw [List.filter_append, filter_class_dropWhile_of_before comp h hc hv, List.append_nil]

/-- When the class is not strictly before the probe `σ`, the class
subsequence of a sorted list lives entirely in the `dropWhile` part. -/
theorem filter_class_takeWhile_of_not_before (comp : α → α → Bool) (h : IsSWO comp)
    {v σ : α} (hv : comp v σ = false) (c : List α) :
    (c.takeWhile (fun x => comp x σ)).filter (equiv_class comp v) = [] := by
  rw [List.filter_eq_nil_iff]
  intro a ha hec
  have haσ : comp a σ = true := by
    have := List.mem_takeWhile_imp ha
    simpa using this
  rw [class_compare_eq comp h hec σ] at haσ
  rw [hv] at haσ
  exact absurd haσ (by simp)

theorem filter_class_dropWhile_of_not_before (comp : α → α → Bool) (h : IsSWO comp)
    {v σ : α} (hv : comp v σ = false) (c : List α) :
    (c.dropWhile (fun x => comp x σ)).filter (equiv_class comp v)
      = c.filter (equiv_class comp v) := by
  conv_rhs => rw [← List.takeWhile_append_dropWhile (p := fun x => comp x σ) (l := c)]
  rw [List.filter_append, filter_class_takeWhile_of_not_before comp h hv c,
    List.nil_append]

theorem takeWhile_takeWhile_of_imp {p q : α → Bool} (l : List α)
    (himp : ∀ x, p x = true → q x = true) :
    (l.takeWhile q).takeWhile p = l.takeWhile p := by
  induction l with
  | nil => rfl
  | cons a l ih =>
    by_cases hqa : q a = true
    · rw [List.takeWhile_cons, if_pos hqa]
      by_cases hpa : p a = true
      · rw [List.takeWhile_cons, if_pos hpa, List.takeWhile_cons, if_pos hpa, ih]
      · rw [List.takeWhile_cons, if_neg hpa, List.takeWhile_cons, if_neg hpa]
    · have hpa : ¬ p a = true := fun hp => hqa (himp a hp)
      rw [List.takeWhile_cons, if_neg hqa, List.takeWhile_cons, if_neg hpa]
      rfl

theorem flatten_map_nil (l : List β) :
    ((l.map (fun _ => ([] : List α))).flatten) = [] := by
  induction l with
  | nil => rfl
  | cons b l ih => simp [ih]

/-- If exactly one index below `T` satisfies `P`, the concatenation of the
per-index conditional segments is the single segment. -/
theorem flatten_map_ite_unique (P : Nat → Prop) [DecidablePred P] (G : List α)
    (T i0 : Nat) (hi0T : i0 < T) (hP : P i0)
    (huniq : ∀ j, j < T → P j → j = i0) :
    ((List.range T).map (fun i => if P i then G else [])).flatten = G := by
  induction T with
  | zero => omega
  | succ T ih =>
    rw [List.range_succ, List.map_append, List.flatten_append]
    by_cases hT0 : i0 = T
    · have hpre : ∀ i ∈ List.range T, (if P i then G else []) = ([] : List α) := by
        intro i hi
        have hiT := List.mem_range.mp hi
        rw [if_neg]
        intro hPi
        have := huniq i (by omega) hPi
        omega
      rw [List.map_congr_left hpre, flatten_map_nil, List.nil_append]
      subst hT0
      simp [hP]
    · have hi0T' : i0 < T := by omega
      rw [ih hi0T' (fun j hj hPj => huniq j (by omega) hPj)]
      have hPT : ¬ P T := fun hPT => hT0 ((huniq T (by omega) hPT)).symm
      simp [hPT]

theorem splitter_before_mono [Inhabited α] (comp : α → α → Bool) (h : IsSWO comp)
    (input : List α) {T j k : Nat} (hT : 1 ≤ T) (hjk : j ≤ k) (hk : k < T) {v : α}
    (hv : comp v (splitter comp input T j) = true) :
    comp v (splitter comp input T k) = true :=
  h.before_trans_nbefore hv (splitter_le comp h input hT hjk hk)

theorem slice_to_length (l : List α) (a : Nat) : slice l a l.length = l.drop a := by
  unfold slice
  exact List.take_of_length_le (by simp)

/-- Which part of one chunk's class subsequence lands in worker `iam`'s
piece: the whole class when worker `iam`'s splitter window contains the
class, nothing otherwise — uniformly in the chunk `s`. -/
theorem filter_class_piece [Inhabited α] (comp : α → α → Bool) (h : IsSWO comp)
    (input : List α) (T iam s : Nat) (hT : 1 ≤ T) (hiam : iam < T) (hs : s < T)
    (v : α) :
    (slice (sorting_place comp input T s) (piece_begin comp input T iam s)
      (piece_end comp input T iam s)).filter (equiv_class comp v)
    = if (iam = 0 ∨ comp v (splitter comp input T iam) = false)
        ∧ (iam + 1 = T ∨ comp v (splitter comp input T (iam + 1)) = true)
      then (sorting_place comp input T s).filter (equiv_class comp v)
      else [] := by
  have hc : List.Sorted (leP comp) (sorting_place comp input T s) :=
    sorted_sorting_place comp h input T s
  have hclen : (sorting_place comp input T s).length = chunk_len input.length T s :=
    length_sorting_place comp input hT hs
  by_cases h0 : iam = 0
  · subst h0
    rw [piece_begin_zero]
    by_cases hlast : 0 + 1 = T
    · -- single worker: the piece is the whole chunk
      have hT1 : T = 1 := by omega
      subst hT1
      have hend : piece_end comp input 1 0 s = chunk_len input.length 1 s :=
        piece_end_last comp input s (by omega)
      rw [hend, ← hclen, slice_zero_eq_take, List.take_length, if_pos]
      exact ⟨Or.inl rfl, Or.inl rfl⟩
    · rw [piece_end_of_lt comp input s hT (by omega)]
      rw [slice_zero_eq_take, lower_bound, take_length_takeWhile]
      by_cases hv1 : comp v (splitter comp input T (0 + 1)) = true
      · rw [filter_class_takeWhile_of_before comp h hc hv1, if_pos]
        exact ⟨Or.inl rfl, Or.inr hv1⟩
      · rw [filter_class_takeWhile_of_not_before comp h (by simpa using hv1) _, if_neg]
        intro hcond
        rcases hcond.2 with hc2 | hc2
        · exact hlast hc2
        · exact hv1 hc2
  · have hpos : 1 ≤ iam := by omega
    rw [piece_begin_of_pos comp input s hT hpos]
    by_cases hlast : iam + 1 = T
    · have hiam' : iam = T - 1 := by omega
      rw [hiam', piece_end_last comp input s hT, ← hclen, slice_to_length,
        lower_bound, drop_length_takeWhile]
      rw [← hiam']
      by_cases hvb : comp v (splitter comp input T iam) = true
      · rw [filter_class_dropWhile_of_before comp h hc hvb, if_neg]
        intro hcond
        rcases hcond.1 with hc1 | hc1
        · exact h0 hc1
        · rw [hvb] at hc1
          exact absurd hc1 (by simp)
      · rw [filter_class_dropWhile_of_not_before comp h (by simpa using hvb) _, if_pos]
        exact ⟨Or.inr (by simpa using hvb), Or.inl hlast⟩
    · have hnext : iam + 1 < T := by omega
      rw [piece_end_of_lt comp input s hT hnext]
      have hσσ : comp (splitter comp input T (iam + 1)) (splitter comp input T iam) = false :=
        splitter_le comp h input hT (by omega) hnext
      have himp : ∀ x, comp x (splitter comp input T iam) = true →
          comp x (splitter comp input T (iam + 1)) = true :=
        fun x hx => h.before_trans_nbefore hx hσσ
      have hble : lower_bound comp (sorting_place comp input T s) (splitter comp input T iam)
          ≤ lower_bound comp (sorting_place comp input T s) (splitter comp input T (iam + 1)) :=
        lower_bound_mono comp h _ hσσ
      rw [slice_eq_take_drop _ hble]
      rw [lower_bound, lower_bound, take_length_takeWhile]
      have hlb : ((sorting_place comp input T s).takeWhile
            (fun x => comp x (splitter comp input T iam))).length
          = (((sorting_place comp input T s).takeWhile
              (fun x => comp x (splitter comp input T (iam + 1)))).takeWhile
            (fun x => comp x (splitter comp input T iam))).length := by
        rw [takeWhile_takeWhile_of_imp _ himp]
      rw [hlb, drop_length_takeWhile]
      have hc' : List.Sorted (leP comp) ((sorting_place comp input T s).takeWhile
          (fun x => comp x (splitter comp input T (iam + 1)))) :=
        List.Pairwise.sublist (List.takeWhile_sublist _) hc
      by_cases hvb : comp v (splitter comp input T iam) = true
      · rw [filter_class_dropWhile_of_before comp h hc' hvb, if_neg]
        intro hcond
        rcases hcond.1 with hc1 | hc1
        · exact h0 hc1
        · rw [hvb] at hc1
          exact absurd hc1 (by simp)
      · rw [filter_class_dropWhile_of_not_before comp h (by simpa using hvb) _]
        by_cases hve : comp v (splitter comp input T (iam + 1)) = true
        · rw [filter_class_takeWhile_of_before comp h hc hve, if_pos]
          exact ⟨Or.inr (by simpa using hvb), Or.inr hve⟩
        · rw [filter_class_takeWhile_of_not_before comp h (by simpa using hve) _, if_neg]
          intro hcond
          rcases hcond.2 with hc2 | hc2
          · omega
          · exact hve hc2

/-- The concatenation of the class subsequences of all sorted chunks is the
class subsequence of the input. -/
theorem filter_class_chunks [Inhabited α] (comp : α → α → Bool) (h : IsSWO comp)
    (input : List α) {T : Nat} (hT : 1 ≤ T) (v : α) :
    ((List.range T).map (fun s =>
      (sorting_place comp input T s).filter (equiv_class comp v))).flatten
    = input.filter (equiv_class comp v) := by
  have h1 : ∀ s ∈ List.range T,
      (sorting_place comp input T s).filter (equiv_class comp v)
      = (slice input (startsF input.length T s)
          (startsF input.length T (s + 1))).filter (equiv_class comp v) := by
    intro s _
    exact filter_class_local_sort comp h _ v
  rw [List.map_congr_left h1]
  have h2 := List.filter_flatten (equiv_class comp v)
    ((List.range T).map (fun s =>
      slice input (startsF input.length T s) (startsF input.length T (s + 1))))
  rw [List.map_map] at h2
  simp only [Function.comp_def] at h2
  rw [← h2, flatten_slices input (startsF input.length T) T
    (fun i _ => startsF_le_succ input.length T i) rfl (startsF_last input.length T hT)]

/-- The class subsequence of worker `iam`'s merged segment: the entire input
class when worker `iam`'s splitter window contains the class, nothing
otherwise. -/
theorem filter_class_worker_merged [Inhabited α] (comp : α → α → Bool) (h : IsSWO comp)
    (input : List α) (T iam : Nat) (hT : 1 ≤ T) (hiam : iam < T) (v : α) :
    (worker_merged comp input T iam).filter (equiv_class comp v)
    = if (iam = 0 ∨ comp v (splitter comp input T iam) = false)
        ∧ (iam + 1 = T ∨ comp v (splitter comp input T (iam + 1)) = true)
      then input.filter (equiv_class comp v)
      else [] := by
  unfold worker_merged multiway_merge
  rw [filter_class_insertionSort comp h _ v]
  unfold worker_seqs
  rw [List.filter_flatten, List.map_map]
  simp only [Function.comp_def]
  rw [List.map_congr_left (fun s hs =>
    filter_class_piece comp h input T iam s hT hiam (List.mem_range.mp hs) v)]
  by_cases hcond : (iam = 0 ∨ comp v (splitter comp input T iam) = false)
      ∧ (iam + 1 = T ∨ comp v (splitter comp input T (iam + 1)) = true)
  · rw [if_pos hcond]
    have hall : ∀ s ∈ List.range T,
        (if (iam = 0 ∨ comp v (splitter comp input T iam) = false)
            ∧ (iam + 1 = T ∨ comp v (splitter comp input T (iam + 1)) = true)
          then (sorting_place comp input T s).filter (equiv_class comp v)
          else [])
        = (sorting_place comp input T s).filter (equiv_class comp v) := by
      intro s _
      rw [if_pos hcond]
    rw [List.map_congr_left hall]
    exact filter_class_chunks comp h input hT v
  · rw [if_neg hcond]
    have hall : ∀ s ∈ List.range T,
        (if (iam = 0 ∨ comp v (splitter comp input T iam) = false)
            ∧ (iam + 1 = T ∨ comp v (splitter comp input T (iam + 1)) = true)
          then (sorting_place comp input T s).filter (equiv_class comp v)
          else [])
        = ([] : List α) := by
      intro s _
      rw [if_neg hcond]
    rw [List.map_congr_left hall, flatten_map_nil]

/-- For every probe `v`, exactly one worker's splitter window contains the
tie-class of `v`. -/
theorem exists_unique_class_worker [Inhabited α] (comp : α → α → Bool) (h : IsSWO comp)
    (input : List α) {T : Nat} (hT : 1 ≤ T) (v : α) :
    ∃ i0, i0 < T
      ∧ ((i0 = 0 ∨ comp v (splitter comp input T i0) = false)
        ∧ (i0 + 1 = T ∨ comp v (splitter comp input T (i0 + 1)) = true))
      ∧ ∀ j, j < T →
          ((j = 0 ∨ comp v (splitter comp input T j) = false)
            ∧ (j + 1 = T ∨ comp v (splitter comp input T (j + 1)) = true)) →
          j = i0 := by
  have hex : ∃ i, i + 1 = T ∨ comp v (splitter comp input T (i + 1)) = true :=
    ⟨T - 1, Or.inl (by omega)⟩
  have hspec := Nat.find_spec hex
  have hle : Nat.find hex ≤ T - 1 := Nat.find_le (Or.inl (by omega))
  refine ⟨Nat.find hex, by omega, ⟨?_, hspec⟩, ?_⟩
  · by_cases h0 : Nat.find hex = 0
    · exact Or.inl h0
    · right
      have hmin := Nat.find_min hex (m := Nat.find hex - 1) (by omega)
      push_neg at hmin
      have heq : (Nat.find hex - 1) + 1 = Nat.find hex := by omega
      rw [heq] at hmin
      simpa using hmin.2
  · intro j hjT hcond
    rcases hcond with ⟨hc1, hc2⟩
    have hij : Nat.find hex ≤ j := Nat.find_le hc2
    rcases Nat.eq_or_lt_of_le hij with heq | hlt
    · omega
    · exfalso
      have hj0 : j ≠ 0 := by omega
      have hcj : comp v (splitter comp input T j) = false := hc1.resolve_left hj0
      rcases hspec with hT0 | hσ
      · omega
      · have hcj' : comp v (splitter comp input T j) = true :=
          splitter_before_mono comp h input hT (show Nat.find hex + 1 ≤ j by omega) hjT hσ
        rw [hcj] at hcj'
        exact absurd hcj' (by simp)

/-- C4: when stability is requested, the relative order of every tie-class
is preserved: for every probe value `v`, the subsequence of output elements
equivalent to `v` equals the subsequence of input elements equivalent to
`v`.  Together with the order and permutation properties this says equal
elements keep their input order. -/
theorem parallel_mergesort_stable [Inhabited α] (comp : α → α → Bool) (input : List α)
    (num_threads : Nat) (h : IsSWO comp) (hnt : 1 ≤ num_threads) (v : α) :
    (parallel_mergesort true comp input num_threads).filter (equiv_class comp v)
      = input.filter (equiv_class comp v) := by
  by_cases hsmall : input.length ≤ 1
  · rw [parallel_mergesort, if_pos hsmall]
  · have hT : 1 ≤ clamp_threads input.length num_threads := by
      unfold clamp_threads
      split <;> omega
    rw [parallel_mergesort_eq_flatten true comp input num_threads h hnt hsmall]
    rw [List.filter_flatten, List.map_map]
    simp only [Function.comp_def]
    rw [List.map_congr_left (fun iam hiam =>
      filter_class_worker_merged comp h input _ iam hT (List.mem_range.mp hiam) v)]
    obtain ⟨i0, hi0T, hP, huniq⟩ := exists_unique_class_worker comp h input hT v
    exact flatten_map_ite_unique _ _ _ i0 hi0T hP huniq

theorem parallel_mergesort_stable_witness :
    (parallel_mergesort true natLt [5, 3, 4, 1, 2] 3).filter (equiv_class natLt 3)
      = ([5, 3, 4, 1, 2] : List Nat).filter (equiv_class natLt 3) :=
  parallel_mergesort_stable natLt [5, 3, 4, 1, 2] 3 natLt_swo (by decide) 3

/-! ### Exact-mode offsets and lengths -/

theorem merge_offset_exact_zero (prim : Nat → Nat → Nat) (n T : Nat) :
    merge_offset_exact prim n T 0 = 0 := by
  unfold merge_offset_exact
  rw [List.map_congr_left (fun s _ => piece_begin_exact_zero prim n T s)]
  simp

theorem merge_offset_exact_succ (prim : Nat → Nat → Nat) (n T : Nat) {iam : Nat}
    (hiam : iam + 1 < T)
    (hprim : ∀ i s, i < T → s < T →
      piece_begin_exact prim n T i s ≤ piece_end_exact prim n T i s) :
    merge_offset_exact prim n T (iam + 1)
      = merge_offset_exact prim n T iam + merge_length_exact prim n T iam := by
  unfold merge_offset_exact merge_length_exact
  rw [List.map_congr_left (fun s hs =>
    (piece_end_exact_eq_begin_succ prim n T s hiam).symm)]
  rw [← List.sum_map_add]
  apply congrArg List.sum
  apply List.map_congr_left
  intro s hs
  have := hprim iam s (by omega) (List.mem_range.mp hs)
  omega

theorem merge_exact_last (prim : Nat → Nat → Nat) (n T : Nat) (hT : 1 ≤ T)
    (hprim : ∀ i s, i < T → s < T →
      piece_begin_exact prim n T i s ≤ piece_end_exact prim n T i s) :
    merge_offset_exact prim n T (T - 1) + merge_length_exact prim n T (T - 1) = n := by
  unfold merge_offset_exact merge_length_exact
  rw [← List.sum_map_add]
  have h1 : ∀ s ∈ List.range T,
      piece_begin_exact prim n T (T - 1) s
        + (piece_end_exact prim n T (T - 1) s - piece_begin_exact prim n T (T - 1) s)
      = chunk_size n T s := by
    intro s hs
    have hsT := List.mem_range.mp hs
    have hbe := hprim (T - 1) s (by omega) hsT
    have hend := piece_end_exact_last prim n T s
    have hchunk := chunk_len_eq n T s
    omega
  rw [List.map_congr_left h1]
  exact startsF_last n T hT

/-- C9 amended: the splitting mode is the hardcoded constant sampling mode,
not a per-call option; nevertheless both splitting procedures as implemented
satisfy the tiling invariants — invariant 3 (the pieces of each chunk tile
it across the workers) in both modes, and invariant 4 (the worker output
segments partition `[0, n)` in worker order) for the sampling mode under a
strict-weak-ordering comparator and for the exact mode under the
rank-selection primitive's well-formedness contract (each worker's piece is
a well-formed sub-range of its chunk). -/
theorem both_splitting_procedures_tile [Inhabited α] (comp : α → α → Bool)
    (input : List α) (T : Nat) (prim : Nat → Nat → Nat) (h : IsSWO comp) (hT : 1 ≤ T)
    (hprim : ∀ i s, i < T → s < T →
      piece_begin_exact prim input.length T i s ≤ piece_end_exact prim input.length T i s) :
    mwmsa = MultiwayMergeSplittingAlgorithm.MWMSA_SAMPLING
    ∧ (∀ s, piece_begin comp input T 0 s = 0
      ∧ piece_end comp input T (T - 1) s = chunk_len input.length T s
      ∧ ∀ iam, iam + 1 < T →
          piece_end comp input T iam s = piece_begin comp input T (iam + 1) s)
    ∧ (∀ s, piece_begin_exact prim input.length T 0 s = 0
      ∧ piece_end_exact prim input.length T (T - 1) s = chunk_len input.length T s
      ∧ ∀ iam, iam + 1 < T →
          piece_end_exact prim input.length T iam s
            = piece_begin_exact prim input.length T (iam + 1) s)
    ∧ (merge_offset comp input T 0 = 0
      ∧ (∀ iam, iam + 1 < T → merge_offset comp input T (iam + 1)
          = merge_offset comp input T iam + merge_length comp input T iam)
      ∧ merge_offset comp input T (T - 1) + merge_length comp input T (T - 1)
          = input.length)
    ∧ (merge_offset_exact prim input.length T 0 = 0
      ∧ (∀ iam, iam + 1 < T → merge_offset_exact prim input.length T (iam + 1)
          = merge_offset_exact prim input.length T iam
            + merge_length_exact prim input.length T iam)
      ∧ merge_offset_exact prim input.length T (T - 1)
          + merge_length_exact prim input.length T (T - 1) = input.length) := by
  refine ⟨rfl, ?_, ?_, ⟨?_, ?_, ?_⟩, ⟨?_, ?_, ?_⟩⟩
  · intro s
    exact ⟨piece_begin_zero comp input T s, piece_end_last comp input s hT,
      fun iam hiam => piece_end_eq_begin_succ comp input s hT hiam⟩
  · intro s
    exact ⟨piece_begin_exact_zero prim input.length T s,
      piece_end_exact_last prim input.length T s,
      fun iam hiam => piece_end_exact_eq_begin_succ prim input.length T s hiam⟩
  · exact merge_offset_zero comp input T
  · exact fun iam hiam => merge_offset_succ comp h input hT hiam
  · exact merge_last comp h input hT
  · exact merge_offset_exact_zero prim input.length T
  · exact fun iam hiam => merge_offset_exact_succ prim input.length T hiam hprim
  · exact merge_exact_last prim input.length T hT hprim

theorem both_splitting_procedures_tile_witness :
    mwmsa = MultiwayMergeSplittingAlgorithm.MWMSA_SAMPLING
    ∧ (∀ s, piece_begin natLt [5, 3, 4, 1, 2] 2 0 s = 0
      ∧ piece_end natLt [5, 3, 4, 1, 2] 2 (2 - 1) s = chunk_len 5 2 s
      ∧ ∀ iam, iam + 1 < 2 →
          piece_end natLt [5, 3, 4, 1, 2] 2 iam s = piece_begin natLt [5, 3, 4, 1, 2] 2 (iam + 1) s)
    ∧ (∀ s, piece_begin_exact (fun _ _ => 1) 5 2 0 s = 0
      ∧ piece_end_exact (fun _ _ => 1) 5 2 (2 - 1) s = chunk_len 5 2 s
      ∧ ∀ iam, iam + 1 < 2 →
          piece_end_exact (fun _ _ => 1) 5 2 iam s
            = piece_begin_exact (fun _ _ => 1) 5 2 (iam + 1) s)
    ∧ (merge_offset natLt [5, 3, 4, 1, 2] 2 0 = 0
      ∧ (∀ iam, iam + 1 < 2 → merge_offset natLt [5, 3, 4, 1, 2] 2 (iam + 1)
          = merge_offset natLt [5, 3, 4, 1, 2] 2 iam + merge_length natLt [5, 3, 4, 1, 2] 2 iam)
      ∧ merge_offset natLt [5, 3, 4, 1, 2] 2 (2 - 1) + merge_length natLt [5, 3, 4, 1, 2] 2 (2 - 1)
          = ([5, 3, 4, 1, 2] : List Nat).length)
    ∧ (merge_offset_exact (fun _ _ => 1) 5 2 0 = 0
      ∧ (∀ iam, iam + 1 < 2 → merge_offset_exact (fun _ _ => 1) 5 2 (iam + 1)
          = merge_offset_exact (fun _ _ => 1) 5 2 iam
            + merge_length_exact (fun _ _ => 1) 5 2 iam)
      ∧ merge_offset_exact (fun _ _ => 1) 5 2 (2 - 1)
          + merge_length_exact (fun _ _ => 1) 5 2 (2 - 1) = ([5, 3, 4, 1, 2] : List Nat).length) := by
  have hprim : ∀ i s, i < 2 → s < 2 →
      piece_begin_exact (fun _ _ => 1) (([5, 3, 4, 1, 2] : List Nat).length) 2 i s
        ≤ piece_end_exact (fun _ _ => 1) (([5, 3, 4, 1, 2] : List Nat).length) 2 i s := by
    intro i s hi hs
    interval_cases i <;> interval_cases s <;> decide
  have h := both_splitting_procedures_tile natLt [5, 3, 4, 1, 2] 2 (fun _ _ => 1)
    natLt_swo (by decide) hprim
  simpa using h

/-- C7 fails on the code: the sample read indices are not always strictly
inside the reading worker's chunk.  For input length `n = 2` and requested
thread count `1` (clamped `T = 1`, a single chunk of length 2 < 10·T), the
split offsets are `es = [0, 1, 2, 2, …, 2]`, so worker 0's sample reads at
`i = 8` use source index `starts[0] + es[9] = 2`, which equals both the end
of the worker's own chunk `starts[1]` and the sequence length `n`: an
out-of-bounds read of `sd->source[n]`. -/
theorem sample_read_index_out_of_bounds :
    clamp_threads 2 1 = 1
    ∧ 8 < num_samples 1
    ∧ sample_index 2 1 0 8 = 2
    ∧ startsF 2 1 (0 + 1) = 2
    ∧ ([5, 3] : List Nat).length = 2 := by
  refine ⟨rfl, by decide, by decide, by decide, rfl⟩

/-- C6 fails on the code: under the copy-to-temporary (default) strategy the
sample values are read from `sd->source` — still holding the unsorted input
— not from the worker's sorted chunk buffer.  For input `[4, 3, 2, 1]` and
`T = 1`, worker 0's first sample reads source index `starts[0] + es[1] = 1`
with value `3`, while the element at the same position of the worker's
sorted chunk is `2`. -/
theorem samples_not_from_sorted_chunk :
    sample_value ([4, 3, 2, 1] : List Nat) 1 0 0 = 3
    ∧ spec_sample_value natLt [4, 3, 2, 1] 1 0 0 = 2 := by
  constructor <;> decide

/-- C6 amended: each worker stores `V·T − 1` samples (`V` the oversampling
factor), read at the equally split positions of its own sub-range of the
*source* sequence (offset `starts[iam] + es[i+1]` from the input begin);
under the copy-to-temporary strategy that sub-range holds the chunk's
original, unsorted contents rather than the sorted chunk. -/
theorem samples_read_from_source_subrange [Inhabited α] (input : List α) (T iam i : Nat) :
    num_samples T = sort_mwms_oversampling * T - 1
    ∧ sample_value input T iam i
      = input.getD (startsF input.length T iam
          + (equally_split (chunk_len input.length T iam) (num_samples T + 1)).getD (i + 1) 0)
          default
    ∧ startsF input.length T iam ≤ sample_index input.length T iam i :=
  ⟨rfl, rfl, Nat.le_add_right _ _⟩

end tlx
